import Mathlib

/-!
Verification of the knowledge-graph pipeline (MelvynChemin/knowledge_graph).

This file shallowly embeds the parts of the Python sources that the verified
properties talk about:

* `chat.py` — `PromptTemplate.format._safe_format` (placeholder substitution);
* `pipeline.py` — `KnowledgeGraphBuilder.clean_code_fence`,
  `save_extraction_results`, `process_chunk`, `create_multimodal_graph`,
  `process_pdf_document`;
* `neo4j_lightrag_storage.py` — `Neo4jLightRAG.create_entity`,
  `create_relationship`, `add_entity_index`, `entity_exists`,
  `sanitize_label`, `load_lightrag_data`;
* `document_parser.py` — `DocumentParser.parse_pdf` (chunk positions and
  image-insertion renumbering);
* `multimodal_processing.py` — `extract_entities_from_description`.

Python strings are modelled as `List Char`; the library string operations the
code relies on (`str.strip`, `str.splitlines`, `str.replace`, `str.split`,
`str.startswith`, `str.join`, `str.upper`) are given faithful executable
models below.  The Neo4j store is modelled as an explicit graph state with
Cypher `MERGE` / `MATCH` semantics.  The two generative-model calls and the
JSON decoder are external services; they appear as explicit function
parameters (`json.loads` as a `String → Option _` oracle whose `none` result
stands for `json.JSONDecodeError`).
-/

/-! ## Python string primitives -/

/-- Code points stripped by Python `str.strip()` (the Unicode whitespace set
used by `str.isspace`). -/
def pySpaceCodes : List Nat :=
  [0x20, 0x09, 0x0a, 0x0d, 0x0b, 0x0c, 0x1c, 0x1d, 0x1e, 0x1f,
   0x85, 0xa0, 0x1680, 0x2000, 0x2001, 0x2002, 0x2003, 0x2004, 0x2005,
   0x2006, 0x2007, 0x2008, 0x2009, 0x200a, 0x2028, 0x2029, 0x202f,
   0x205f, 0x3000]

def isPySpace (c : Char) : Bool :=
  pySpaceCodes.contains c.toNat

/-- Python `s.strip()`: drop leading and trailing whitespace. -/
def pyStrip (s : List Char) : List Char :=
  ((s.dropWhile isPySpace).reverse.dropWhile isPySpace).reverse

/-- Line-terminator code points recognised by Python `str.splitlines`
(`\r\n` is additionally treated as a single terminator). -/
def lineBreakCodes : List Nat :=
  [0x0a, 0x0d, 0x0b, 0x0c, 0x1c, 0x1d, 0x1e, 0x85, 0x2028, 0x2029]

def isLineBreak (c : Char) : Bool :=
  lineBreakCodes.contains c.toNat

/-- Worker for `pySplitlines`: `acc` is the current line, reversed;
`\r\n` counts as a single terminator, and a terminator at the very end
produces no further line. -/
def pySplitlinesGo (acc : List Char) : List Char → List (List Char)
  | [] => [acc.reverse]
  | '\r' :: '\n' :: rest =>
      acc.reverse :: (match rest with
        | [] => []
        | r :: rs => pySplitlinesGo [] (r :: rs))
  | c :: rest =>
      if isLineBreak c then
        acc.reverse :: (match rest with
          | [] => []
          | r :: rs => pySplitlinesGo [] (r :: rs))
      else pySplitlinesGo (c :: acc) rest

/-- Python `s.splitlines()`: split at line terminators, no trailing empty
line for a trailing terminator, `[]` for the empty string. -/
def pySplitlines : List Char → List (List Char)
  | [] => []
  | c :: rest => pySplitlinesGo [] (c :: rest)

/-- Python `sep.join(xs)`. -/
def pyJoin (sep : List Char) (xs : List (List Char)) : List Char :=
  List.intercalate sep xs

/-- Fuel-indexed worker for `pyReplace` (Python `str.replace` scans left to
right and skips the whole pattern after a match, which is not structural
recursion; one unit of fuel is spent per examined position). -/
def pyReplaceGo (pat v : List Char) : Nat → List Char → List Char
  | _, [] => []
  | 0, s => s
  | fuel + 1, c :: rest =>
      if pat.isPrefixOf (c :: rest) then
        v ++ pyReplaceGo pat v fuel (List.drop pat.length (c :: rest))
      else
        c :: pyReplaceGo pat v fuel rest

/-- Python `s.replace(pat, v)`: replace every occurrence of `pat`, scanning
left to right, non-overlapping.  (For the empty pattern Python interleaves
`v` around every character.) -/
def pyReplace (pat v s : List Char) : List Char :=
  match pat with
  | [] => v ++ (s.map (fun c => c :: v)).flatten
  | _ :: _ => pyReplaceGo pat v s.length s

/-- Fuel-indexed worker for `pySplit`; `acc` is the current field, reversed. -/
def pySplitGo (sep : List Char) : Nat → List Char → List Char → List (List Char)
  | _, acc, [] => [acc.reverse]
  | 0, acc, s => [acc.reverse ++ s]
  | fuel + 1, acc, c :: rest =>
      if sep.isPrefixOf (c :: rest) then
        acc.reverse :: pySplitGo sep fuel [] (List.drop sep.length (c :: rest))
      else
        pySplitGo sep fuel (c :: acc) rest

/-- Python `s.split(sep)` for a non-empty separator (empty fields kept,
`"".split(sep) = [""]`).  Python raises on an empty separator; the code
never passes one, and the model returns `[s]` there. -/
def pySplit (sep s : List Char) : List (List Char) :=
  match sep with
  | [] => [s]
  | _ :: _ => pySplitGo sep s.length [] s

/-- Python `s.upper()` (ASCII case map; sufficient for the relation tokens
the loader upper-cases). -/
def pyUpper (s : List Char) : List Char :=
  s.map Char.toUpper

/-! ## `chat.py` — placeholder substitution -/

/-- `chat.py::PromptTemplate.format._safe_format`: fold the keyword mapping
in order, replacing each `"{" + k + "}"` in the content by the value
(`out = out.replace("{" + k + "}", str(v))`). -/
def safe_format (mapping : List (List Char × List Char)) (content : List Char) :
    List Char :=
  mapping.foldl (fun out kv => pyReplace ('{' :: kv.1 ++ ['}']) kv.2 out) content

/-! ## `pipeline.py` — `clean_code_fence` -/

/-- `pipeline.py::KnowledgeGraphBuilder.clean_code_fence` (the identical
inline copy lives in
`multimodal_processing.py::extract_entities_from_description`): strip the
input, and if it starts with a backtick fence drop the first line, drop the
last line when that line strips to a bare fence, rejoin and strip again. -/
def clean_code_fence (s : List Char) : List Char :=
  let s := pyStrip s
  if "```".data.isPrefixOf s then
    let lines := pySplitlines s
    let lines := lines.drop 1
    let lines :=
      match lines.getLast? with
      | some lastLine =>
          if pyStrip lastLine = "```".data then lines.dropLast else lines
      | none => lines
    pyStrip (pyJoin ['\n'] lines)
  else s


/-! ## `neo4j_lightrag_storage.py` — the graph store -/

/-- A Neo4j node as this code base uses it: one label (set at creation from
`entity_type`), a `name` property, and a bag of further properties. -/
structure GraphNode where
  label : List Char
  name : List Char
  props : List (List Char × List Char)
  deriving DecidableEq, Repr

/-- A relationship `(s)-[r:rel]->(t)`; endpoints are identified by the
`name` property, as in every `MATCH ( {name: ...})` the code issues. -/
structure GraphEdge where
  src : List Char
  tgt : List Char
  relType : List Char
  props : List (List Char × List Char)
  deriving DecidableEq, Repr

structure GraphState where
  nodes : List GraphNode
  edges : List GraphEdge
  deriving DecidableEq, Repr

def GraphState.empty : GraphState := ⟨[], []⟩

/-- Cypher `SET e += $properties` for one key: overwrite the key if present,
append it otherwise. -/
def setProp (props : List (List Char × List Char)) (k v : List Char) :
    List (List Char × List Char) :=
  if props.any (fun p => p.1 = k) then
    props.map (fun p => if p.1 = k then (k, v) else p)
  else props ++ [(k, v)]

/-- Cypher `SET e += $properties`: fold `setProp` over the new properties. -/
def mergeProps (props new : List (List Char × List Char)) :
    List (List Char × List Char) :=
  new.foldl (fun ps kv => setProp ps kv.1 kv.2) props

/-- `Neo4jLightRAG.create_entity`: runs
`MERGE (e:{entity_type} {name: $name}) SET e += $properties`.
Cypher `MERGE` with a label matches only nodes carrying that label **and**
that name; when at least one matches, `SET` applies to every match,
otherwise one new labelled node is created and the properties set on it. -/
def create_entity (st : GraphState) (entity_name entity_type : List Char)
    (properties : List (List Char × List Char)) : GraphState :=
  if st.nodes.any (fun n => n.label = entity_type ∧ n.name = entity_name) then
    { st with nodes := st.nodes.map (fun n =>
        if n.label = entity_type ∧ n.name = entity_name then
          { n with props := mergeProps n.props properties }
        else n) }
  else
    { st with nodes := st.nodes ++
        [{ label := entity_type, name := entity_name,
           props := mergeProps [] properties }] }

/-- `Neo4jLightRAG.entity_exists`: `MATCH (n {name: $name})`, label-blind. -/
def entity_exists (st : GraphState) (entity_name : List Char) : Bool :=
  st.nodes.any (fun n => n.name = entity_name)

/-- `Neo4jLightRAG.create_relationship`: runs
`MATCH (s {name: $source}) MATCH (t {name: $target})
MERGE (s)-[r:{relation_type}]->(t) SET r += $properties`.
When either `MATCH` is empty the query produces no row: nothing is created
and `result.single()` is falsy, so the method only prints the
"entities may not exist" warning.  The returned `Bool` records whether a row
came back (`True` = edge merged, `False` = logged no-op). -/
def create_relationship (st : GraphState) (source target relation_type : List Char)
    (properties : List (List Char × List Char)) : GraphState × Bool :=
  if entity_exists st source ∧ entity_exists st target then
    if st.edges.any (fun e =>
        e.src = source ∧ e.tgt = target ∧ e.relType = relation_type) then
      ({ st with edges := st.edges.map (fun e =>
          if e.src = source ∧ e.tgt = target ∧ e.relType = relation_type then
            { e with props := mergeProps e.props properties }
          else e) }, true)
    else
      ({ st with edges := st.edges ++
          [{ src := source, tgt := target, relType := relation_type,
             props := mergeProps [] properties }] }, true)
  else (st, false)

/-- `Neo4jLightRAG.add_entity_index`:
`MATCH (e {name: $name}) SET e.index_summary = $summary` — sets the property
on every node with that name, no-op when none matches. -/
def add_entity_index (st : GraphState) (entity_name summary : List Char) :
    GraphState :=
  { st with nodes := st.nodes.map (fun n =>
      if n.name = entity_name then
        { n with props := setProp n.props "index_summary".data summary }
      else n) }

/-- `neo4j_lightrag_storage.py::sanitize_label`:
`label.replace(' ', '_').replace('-', '_')`. -/
def sanitize_label (label : List Char) : List Char :=
  pyReplace ['-'] ['_'] (pyReplace [' '] ['_'] label)

/-- Extracted entity record (`{"name": ..., "type": ...}`). -/
structure EntityRec where
  name : List Char
  type : List Char
  deriving DecidableEq, Repr

/-- Extracted relationship record
(`{"source": ..., "relation": ..., "target": ...}`). -/
structure RelationRec where
  source : List Char
  relation : List Char
  target : List Char
  deriving DecidableEq, Repr

/-- Entity-index record (`{"key": ..., "value": ...}`). -/
structure IndexRec where
  key : List Char
  value : List Char
  deriving DecidableEq, Repr

/-- `neo4j_lightrag_storage.py::load_lightrag_data`: sanitize every entity
name and type, skip creation when a node with that name already exists
(label-blind `entity_exists`); then create all relationships with sanitized
endpoints and upper-cased relation; then attach the index summaries under
sanitized keys. -/
def load_lightrag_data (st : GraphState) (entities_json : List EntityRec)
    (relationships_json : List RelationRec) (entity_index_json : List IndexRec) :
    GraphState :=
  let st := entities_json.foldl (fun st e =>
    let entity_name := sanitize_label e.name
    let entity_type := sanitize_label e.type
    if entity_exists st entity_name then st
    else create_entity st entity_name entity_type []) st
  let st := relationships_json.foldl (fun st r =>
    (create_relationship st (sanitize_label r.source) (sanitize_label r.target)
      (pyUpper r.relation) []).1) st
  entity_index_json.foldl (fun st idx =>
    add_entity_index st (sanitize_label idx.key) idx.value) st


/-! ## `pipeline.py` / `multimodal_processing.py` — extraction plumbing

The LLM calls are external; the raw response strings therefore appear as
inputs.  `json.loads` is an external decoder; it appears as an oracle of
type `List Char → Option _` where `none` models `json.JSONDecodeError`. -/

/-- Parsed triples payload: `{"entities": [...], "relationships": [...]}`. -/
structure Extraction where
  entities : List EntityRec
  relationships : List RelationRec
  deriving DecidableEq, Repr

/-- Parsed index payload: `{"entity_index": [...]}`. -/
structure KeyValues where
  entity_index : List IndexRec
  deriving DecidableEq, Repr

/-- `pipeline.py::KnowledgeGraphBuilder.save_extraction_results`: fence-clean
both payloads, then `json.loads` each one with **no** exception handler —
a malformed payload raises `json.JSONDecodeError` (modelled as `.error`),
the triples one first.  (The JSON file dump is an external side effect.) -/
def save_extraction_results (parseTriples : List Char → Option Extraction)
    (parseKV : List Char → Option KeyValues) (triples key_values : List Char) :
    Except (List Char) (Extraction × KeyValues) :=
  match parseTriples (clean_code_fence triples) with
  | none => .error "JSONDecodeError".data
  | some triples_dict =>
      match parseKV (clean_code_fence key_values) with
      | none => .error "JSONDecodeError".data
      | some key_values_dict => .ok (triples_dict, key_values_dict)

/-- `pipeline.py::KnowledgeGraphBuilder.process_chunk` with the two LLM
response strings as inputs: save/parse the results, then load them into the
store; an error from `save_extraction_results` propagates and the load step
is never reached. -/
def process_chunk (parseTriples : List Char → Option Extraction)
    (parseKV : List Char → Option KeyValues) (st : GraphState)
    (triples key_values : List Char) : Except (List Char) (GraphState × Bool) :=
  match save_extraction_results parseTriples parseKV triples key_values with
  | .error e => .error e
  | .ok (saved_triples, saved_key_values) =>
      .ok (load_lightrag_data st saved_triples.entities
            saved_triples.relationships saved_key_values.entity_index, true)

/-- `multimodal_processing.py::MultimodalProcessor.extract_entities_from_description`
with the LLM response string as input: fence-clean (the inline code is
byte-identical to `clean_code_fence`), then `json.loads` inside
`try: ... except: return {"entities": [], "relationships": []}`. -/
def extract_entities_from_description
    (parseTriples : List Char → Option Extraction) (response_content : List Char) :
    Extraction :=
  match parseTriples (clean_code_fence response_content) with
  | some parsed => parsed
  | none => { entities := [], relationships := [] }

/-- `pipeline.py::KnowledgeGraphBuilder.create_multimodal_graph` with the
extractor's raw triples response as input: create the anchor node, then
`json.loads(triples_clean)` with **no** handler (a parse failure raises
after the anchor was already created), then for each extracted entity create
the node with its **raw** name and type and a `BELONGS_TO` edge to the
anchor. -/
def create_multimodal_graph (parseTriples : List Char → Option Extraction)
    (st : GraphState) (image_path detailed_description chunk_id triples : List Char) :
    GraphState × Except (List Char) (List Char) :=
  let anchor_name := "Image_".data ++ chunk_id
  let st := create_entity st anchor_name "MultimodalAnchor".data
    [("modality".data, "image".data),
     ("image_path".data, image_path),
     ("detailed_description".data, detailed_description)]
  match parseTriples (clean_code_fence triples) with
  | none => (st, .error "JSONDecodeError".data)
  | some entities_from_image =>
      (entities_from_image.entities.foldl (fun st entity =>
        let st := create_entity st entity.name entity.type []
        (create_relationship st entity.name anchor_name "BELONGS_TO".data []).1) st,
       .ok anchor_name)

/-! ## `pipeline.py::process_pdf_document` — the orchestrator -/

inductive ChunkKind
  | text
  | image
  deriving DecidableEq, Repr

/-- A chunk yielded by `parser.py::PDFParser.parse_pdf`
(`type`, `content`, `page`, `context`). -/
structure PChunk where
  ctype : ChunkKind
  content : List Char
  page : Nat
  context : List Char
  deriving DecidableEq, Repr

/-- Logged outcome of one loop iteration of `process_pdf_document`. -/
inductive ChunkOutcome
  | textDone
  | textError (msg : List Char)
  | imageDone
  | imageError (msg : List Char)
  deriving DecidableEq, Repr

/-- One chunk processor: receives the store, returns the store as mutated so
far together with `ok` or the raised exception (a Python call can have
written to the store before raising). -/
def ChunkProcessor (α : Type) : Type :=
  α → GraphState → GraphState × Except (List Char) Unit

/-- Loop body of `pipeline.py::process_pdf_document`: `chunk_counter` is
incremented for every chunk; the text branch runs
`builder.process_chunk(chunk['content'], chunk_id)` and the image branch the
multimodal calls, each wrapped in `try: ... except Exception as e:` that
prints the error and falls through to the next iteration. -/
def process_pdf_document_go (processText : ChunkProcessor (List Char × List Char))
    (processImage : ChunkProcessor (PChunk × Nat)) :
    Nat → GraphState → List PChunk → GraphState × List ChunkOutcome
  | _, st, [] => (st, [])
  | chunk_counter, st, chunk :: rest =>
      match chunk.ctype with
      | .text =>
          let (st', r) := processText
            (chunk.content,
             "pdf_chunk_".data ++ (Nat.repr (chunk_counter + 1)).data) st
          let (stFinal, outs) :=
            process_pdf_document_go processText processImage
              (chunk_counter + 1) st' rest
          match r with
          | .ok _ => (stFinal, .textDone :: outs)
          | .error e => (stFinal, .textError e :: outs)
      | .image =>
          let (st', r) := processImage (chunk, chunk_counter + 1) st
          let (stFinal, outs) :=
            process_pdf_document_go processText processImage
              (chunk_counter + 1) st' rest
          match r with
          | .ok _ => (stFinal, .imageDone :: outs)
          | .error e => (stFinal, .imageError e :: outs)

/-- `pipeline.py::process_pdf_document` over an already-parsed chunk list. -/
def process_pdf_document (processText : ChunkProcessor (List Char × List Char))
    (processImage : ChunkProcessor (PChunk × Nat))
    (chunks : List PChunk) (st : GraphState) : GraphState × List ChunkOutcome :=
  process_pdf_document_go processText processImage 0 st chunks

/-! ## `document_parser.py::DocumentParser.parse_pdf` — positioned chunks -/

/-- Content of a `DocumentParser` chunk: a stripped paragraph, or a page
render produced by `convert_from_path` (one image per page, identified here
by its page index). -/
inductive DContent
  | text (s : List Char)
  | image (page_render : Nat)
  deriving DecidableEq, Repr

/-- A `DocumentParser` chunk dict
(`{'type', 'content', 'position', 'page'}`). -/
structure DChunk where
  ctype : ChunkKind
  content : DContent
  position : Nat
  page : Nat
  deriving DecidableEq, Repr

/-- Inner loop of step 1 of `parse_pdf`: for each paragraph of one page,
emit a text chunk when `para.strip()` is non-empty, incrementing `position`.
Returns the chunks plus the updated `position` counter. -/
def add_page_paragraphs (page_num : Nat) (position : Nat) :
    List (List Char) → List DChunk × Nat
  | [] => ([], position)
  | para :: rest =>
      if pyStrip para ≠ [] then
        let (cs, position') := add_page_paragraphs page_num (position + 1) rest
        ({ ctype := .text, content := .text (pyStrip para),
           position := position, page := page_num } :: cs, position')
      else add_page_paragraphs page_num position rest

/-- Step 1 of `parse_pdf`: split each page's text on `"\n\n"` and emit the
non-empty paragraphs in reading order, threading the `position` counter
across pages. -/
def add_pages (page_num position : Nat) : List (List Char) → List DChunk × Nat
  | [] => ([], position)
  | text :: pages =>
      let (cs, position') :=
        add_page_paragraphs page_num position (pySplit "\n\n".data text)
      let (cs', position'') := add_pages (page_num + 1) position' pages
      (cs ++ cs', position'')

/-- `DocumentParser._estimate_image_position`: indices of this page's chunks;
the middle one if any, else the end of the list. -/
def estimate_image_position (chunks : List DChunk) (page_num : Nat) : Nat :=
  let page_chunks := (List.range chunks.length).filter (fun i =>
    match chunks[i]? with
    | some c => c.page = page_num
    | none => false)
  match page_chunks with
  | [] => chunks.length
  | _ :: _ => page_chunks.getD (page_chunks.length / 2) 0

/-- Python `list.insert(idx, x)`: insert before `idx`, clamped to append. -/
def pyInsert (x : DChunk) : Nat → List DChunk → List DChunk
  | 0, l => x :: l
  | _ + 1, [] => [x]
  | n + 1, c :: rest => c :: pyInsert x n rest

/-- The renumbering loop
`for i in range(insert_pos + 1, len(chunks)): chunks[i]['position'] = i`:
walk the list with its index `i`, overwriting `position` from `start` on. -/
def renumber_from (start : Nat) : Nat → List DChunk → List DChunk
  | _, [] => []
  | i, c :: rest =>
      (if start ≤ i then { c with position := i } else c) ::
        renumber_from start (i + 1) rest

/-- Step 2 of `parse_pdf` for one page render: estimate the insertion index,
insert the image chunk with `position := insert_pos`, then renumber every
later chunk to its list index. -/
def insert_image_chunk (chunks : List DChunk) (page_num : Nat) : List DChunk :=
  let insert_pos := estimate_image_position chunks page_num
  let chunks' := pyInsert
    { ctype := .image, content := .image page_num,
      position := insert_pos, page := page_num } insert_pos chunks
  renumber_from (insert_pos + 1) 0 chunks'

/-- `DocumentParser.parse_pdf` with the decoder outputs as inputs: the
per-page extracted text, and the number of page renders delivered by
`convert_from_path` (zero when image extraction fails and the parser
degrades to text-only). -/
def parse_pdf (page_texts : List (List Char)) (image_page_count : Nat) :
    List DChunk :=
  (List.range image_page_count).foldl insert_image_chunk
    (add_pages 0 0 page_texts).1


/-! ## Context windowing (`get_surrounding_context`)

The tests (`test_multimodal.py`) import `get_surrounding_context`,
`process_full_document` and friends from `pipeline`, but the provided
`pipeline.py` does not define them; the function is modelled from the spec. -/

/-- A chunk dict as the context tests build them
(`{'type', 'content', 'position', 'page'}` with string content). -/
structure TChunk where
  ctype : ChunkKind
  content : List Char
  position : Nat
  page : Nat
  deriving DecidableEq, Repr

/-- Modelled from the spec: `get_surrounding_context` is imported from
`pipeline` by `test_multimodal.py` but absent from the provided sources.
Spec §4.2: collect the `content` of all Text chunks whose index lies in
`[index - delta, index)` and then `(index, index + delta]`, clipped to the
sequence bounds, in original order, and join them with a blank-line
separator; non-text chunks inside the window are skipped without counting
against the window budget. -/
def get_surrounding_context (chunks : List TChunk) (index : Nat)
    (delta : Nat) : List Char :=
  let textAt := fun (i : Nat) =>
    match chunks[i]? with
    | some c => if c.ctype = ChunkKind.text then some c.content else none
    | none => none
  let before :=
    ((List.range chunks.length).filter
      (fun i => index - delta ≤ i ∧ i < index)).filterMap textAt
  let after :=
    ((List.range chunks.length).filter
      (fun i => index < i ∧ i ≤ index + delta)).filterMap textAt
  pyJoin "\n\n".data (before ++ after)

/-! ## Auxiliary definitions used by the theorems -/

/-- The user turn of `PromptTemplates.get_index_generation_prompt`
(`pipeline.py`), holding both the `{question}` and the `{text}`
placeholder. -/
def index_prompt_user_line : List Char :=
  "Entities and Relationships:{question} Original Text:{text}".data

/-- A node whose identifiers are already sanitize-normal. -/
def sanitized_node (node : GraphNode) : Prop :=
  sanitize_label node.name = node.name ∧ sanitize_label node.label = node.label

/-- Newline-pure means: the only line terminator occurring is `'\n'`. -/
def nlPure (s : List Char) : Prop :=
  ∀ c ∈ s, isLineBreak c = true → c = '\n'

/-- Position invariant: the chunk positions read `0, 1, 2, …` down the
list, i.e. every chunk's `position` equals its list index. -/
def PosOk (l : List DChunk) : Prop :=
  l.map (fun c => c.position) = List.range l.length

/-- Concrete two-chunk list used by the C2 witness. -/
def c2_chunks : List DChunk :=
  [{ ctype := .text, content := .text "A".data, position := 0, page := 0 },
   { ctype := .text, content := .text "B".data, position := 1, page := 1 }]

/-! ## Basic store lemmas -/

/-- With no node of the given name present, the labelled `MERGE` pattern of
`create_entity` cannot match either. -/
theorem any_label_name_eq_false (st : GraphState) (n t : List Char)
    (h : entity_exists st n = false) :
    st.nodes.any (fun node => node.label = t ∧ node.name = n) = false := by
  simp only [entity_exists, List.any_eq_false, decide_eq_true_eq] at h ⊢
  exact fun node hm hc => h node hm hc.2

theorem mergeProps_nil (p : List (List Char × List Char)) :
    mergeProps p [] = p := rfl

/-! ## C1 — entity upsert identity -/

/-- C1 (counterexample): `create_entity("MIT", "Organization", {})` followed
by `create_entity("MIT", "University", {founded: 1861})` leaves **two**
nodes named `"MIT"`, not one: the labelled Cypher `MERGE` matches by
(label, name), so the second call creates a fresh `University` node instead
of merging into the `Organization` node. -/
theorem create_entity_merge_by_name_counterexample :
    ¬ (((create_entity
          (create_entity GraphState.empty "MIT".data "Organization".data [])
          "MIT".data "University".data
          [("founded".data, "1861".data)]).nodes.filter
        (fun node => node.name = "MIT".data)).length = 1) := by
  decide

/-- When the labelled pattern matches nothing, `MERGE` creates a new node at
the end of the store with the given properties set on it. -/
theorem create_entity_of_not_matched (st : GraphState) (n t : List Char)
    (p : List (List Char × List Char))
    (h : st.nodes.any (fun node => node.label = t ∧ node.name = n) = false) :
    create_entity st n t p =
      { st with nodes := st.nodes ++
          [{ label := t, name := n, props := mergeProps [] p }] } := by
  rw [create_entity, if_neg (by simp only [h]; exact Bool.false_ne_true)]

/-- C1 (amended): entity upsert identity is (type, name) at the store level
and name-only only on the loader path.  With no node named `n` present and
`t1 ≠ t2`:
`create_entity(n, t1, {})` then `create_entity(n, t2, p)` yields **two**
nodes named `n` — the original `⟨t1, n, {}⟩` untouched (so `p` is never
merged onto it) and a new `⟨t2, n, p⟩`; whereas the loader
(`load_lightrag_data`), which matches by name alone via `entity_exists`,
skips the second upsert entirely, leaving one node labelled `t1` whose
properties do **not** include `p`. -/
theorem create_entity_upsert_identity (st : GraphState)
    (n t1 t2 : List Char) (p : List (List Char × List Char))
    (hfresh : entity_exists st n = false)
    (hfreshS : entity_exists st (sanitize_label n) = false)
    (hne : t1 ≠ t2) :
    ((create_entity (create_entity st n t1 []) n t2 p).nodes.filter
        (fun node => node.name = n) =
      [{ label := t1, name := n, props := [] },
       { label := t2, name := n, props := mergeProps [] p }]) ∧
    ((load_lightrag_data st [⟨n, t1⟩, ⟨n, t2⟩] [] []).nodes.filter
        (fun node => node.name = sanitize_label n) =
      [{ label := sanitize_label t1, name := sanitize_label n, props := [] }]) := by
  have hfilter : st.nodes.filter (fun node => node.name = n) = [] := by
    simp only [entity_exists, List.any_eq_false, decide_eq_true_eq] at hfresh
    simp only [List.filter_eq_nil_iff, decide_eq_true_eq]
    exact hfresh
  have hfilterS :
      st.nodes.filter (fun node => node.name = sanitize_label n) = [] := by
    simp only [entity_exists, List.any_eq_false, decide_eq_true_eq] at hfreshS
    simp only [List.filter_eq_nil_iff, decide_eq_true_eq]
    exact hfreshS
  constructor
  · have hA : create_entity st n t1 [] =
        { st with nodes := st.nodes ++
            [{ label := t1, name := n, props := [] }] } := by
      rw [create_entity_of_not_matched st n t1 []
        (any_label_name_eq_false st n t1 hfresh)]
      rfl
    have anyApp : ((st.nodes ++
        [({ label := t1, name := n, props := [] } : GraphNode)]).any
          (fun node => node.label = t2 ∧ node.name = n)) = false := by
      rw [List.any_append, any_label_name_eq_false st n t2 hfresh]
      simp [hne]
    rw [hA, create_entity_of_not_matched _ n t2 p (by simpa using anyApp)]
    simp [List.filter_append, hfilter]
  · have hA' : create_entity st (sanitize_label n) (sanitize_label t1) [] =
        { st with nodes := st.nodes ++
            [{ label := sanitize_label t1, name := sanitize_label n,
               props := [] }] } := by
      rw [create_entity_of_not_matched st (sanitize_label n) (sanitize_label t1)
        [] (any_label_name_eq_false st (sanitize_label n) (sanitize_label t1)
          hfreshS)]
      rfl
    have hInner :
        (if entity_exists st (sanitize_label n) = true then st
         else create_entity st (sanitize_label n) (sanitize_label t1) []) =
        { st with nodes := st.nodes ++
            [{ label := sanitize_label t1, name := sanitize_label n,
               props := [] }] } := by
      rw [if_neg (by simp [hfreshS]), hA']
    have hOuter : entity_exists
        { st with nodes := st.nodes ++
            [{ label := sanitize_label t1, name := sanitize_label n,
               props := [] }] } (sanitize_label n) = true := by
      simp [entity_exists, List.any_append]
    rw [load_lightrag_data]
    simp only [List.foldl_cons, List.foldl_nil]
    rw [hInner, if_pos hOuter]
    simp [List.filter_append, hfilterS]

/-- C1 (witness): the amended theorem at the spec's own example. -/
theorem create_entity_upsert_identity_witness :
    entity_exists GraphState.empty "MIT".data = false ∧
    ((create_entity
        (create_entity GraphState.empty "MIT".data "Organization".data [])
        "MIT".data "University".data
        [("founded".data, "1861".data)]).nodes.filter
      (fun node => node.name = "MIT".data) =
      [{ label := "Organization".data, name := "MIT".data, props := [] },
       { label := "University".data, name := "MIT".data,
         props := mergeProps [] [("founded".data, "1861".data)] }]) :=
  ⟨by decide,
   (create_entity_upsert_identity GraphState.empty "MIT".data
      "Organization".data "University".data [("founded".data, "1861".data)]
      (by decide) (by decide) (by decide)).1⟩

/-! ## C4 — dangling relationship no-op -/

/-- C4: when either endpoint name has no node, `create_relationship` neither
creates a node nor an edge nor raises: both `MATCH` clauses must bind, so
the `MERGE` never runs, the store is returned unchanged, and the falsy
`result.single()` makes the method print the logged warning (the `false`
component). -/
theorem create_relationship_missing_endpoint_noop (st : GraphState)
    (source target relation_type : List Char)
    (properties : List (List Char × List Char))
    (h : entity_exists st source = false ∨ entity_exists st target = false) :
    create_relationship st source target relation_type properties =
      (st, false) := by
  rw [create_relationship, if_neg]
  rcases h with h | h <;> simp [h]

/-- C4 (witness): `upsertRelationship("Ghost", "MIT", "WORKS_AT")` on the
empty store is a logged no-op. -/
theorem create_relationship_missing_endpoint_noop_witness :
    entity_exists GraphState.empty "Ghost".data = false ∧
    create_relationship GraphState.empty "Ghost".data "MIT".data
      "WORKS_AT".data [] = (GraphState.empty, false) :=
  ⟨by decide,
   create_relationship_missing_endpoint_noop GraphState.empty "Ghost".data
     "MIT".data "WORKS_AT".data [] (Or.inl (by decide))⟩

/-! ## C7 — context window (spec-modelled) -/

/-- C7: on the spec's 7-chunk example — text chunks at indices 0, 1, 3, 4, 6
and images at 2 and 5 — `get_surrounding_context chunks 2 2` returns exactly
the contents of chunks 0, 1, 3, 4 in order, joined by blank lines: the text
chunks with index in `[0, 2) ∪ (2, 4]`, images skipped without consuming
window budget. -/
theorem get_surrounding_context_window :
    get_surrounding_context
      [{ ctype := .text, content := "A".data, position := 0, page := 0 },
       { ctype := .text, content := "B".data, position := 1, page := 0 },
       { ctype := .image, content := "img1.png".data, position := 2, page := 0 },
       { ctype := .text, content := "C".data, position := 3, page := 0 },
       { ctype := .text, content := "D".data, position := 4, page := 1 },
       { ctype := .image, content := "img2.png".data, position := 5, page := 1 },
       { ctype := .text, content := "E".data, position := 6, page := 1 }] 2 2 =
      "A\n\nB\n\nC\n\nD".data := by
  decide

/-! ## C10 — placeholder values are not inert -/


/-- C10: `_safe_format` folds the replacements one key at a time, so a value
is not inert: binding `question` to a value containing the literal
`"{text}"` has that token rewritten by the later `text` replacement — the
value appears as `SORIGS`, not as the supplied `S{text}S`. -/
theorem safe_format_values_not_inert :
    safe_format [("question".data, "S{text}S".data), ("text".data, "ORIG".data)]
      index_prompt_user_line =
      "Entities and Relationships:SORIGS Original Text:ORIG".data ∧
    safe_format [("question".data, "S{text}S".data), ("text".data, "ORIG".data)]
      index_prompt_user_line ≠
      "Entities and Relationships:S{text}S Original Text:ORIG".data := by
  constructor
  · decide
  · decide

/-! ## C8 — per-chunk failures never abort the document -/

/-- Auxiliary for C8: the loop emits exactly one logged outcome per chunk,
whatever the two processors do (including always raising). -/
theorem process_pdf_document_go_length
    (processText : ChunkProcessor (List Char × List Char))
    (processImage : ChunkProcessor (PChunk × Nat)) :
    ∀ (chunks : List PChunk) (k : Nat) (st : GraphState),
      (process_pdf_document_go processText processImage k st chunks).2.length =
        chunks.length := by
  intro chunks
  induction chunks with
  | nil => intro k st; rfl
  | cons c rest ih =>
    intro k st
    rw [process_pdf_document_go]
    cases hc : c.ctype <;> simp only []
    · rcases hp : processText (c.content, "pdf_chunk_".data ++
        (Nat.repr (k + 1)).data) st with ⟨st', r⟩
      cases r <;> simp [hc, hp, ih]
    · rcases hp : processImage (c, k + 1) st with ⟨st', r⟩
      cases r <;> simp [hc, hp, ih]

/-- C8: `process_pdf_document` is partial-failure tolerant.  (i) Whatever
the two chunk processors do — including raising on every chunk — the run
produces one logged outcome per chunk, so processing never aborts early;
(ii)/(iii) when the text (resp. image) branch raises on the head chunk, the
`except Exception` handler records the logged error outcome and the loop
continues with the remaining chunks from the store state the failed call
left behind. -/
theorem process_pdf_document_partial_failure_tolerant :
    (∀ (processText : ChunkProcessor (List Char × List Char))
       (processImage : ChunkProcessor (PChunk × Nat))
       (chunks : List PChunk) (st : GraphState),
      (process_pdf_document processText processImage chunks st).2.length =
        chunks.length) ∧
    (∀ (processText : ChunkProcessor (List Char × List Char))
       (processImage : ChunkProcessor (PChunk × Nat))
       (c : PChunk) (rest : List PChunk) (k : Nat) (st st' : GraphState)
       (e : List Char),
      c.ctype = ChunkKind.text →
      processText (c.content, "pdf_chunk_".data ++ (Nat.repr (k + 1)).data) st =
        (st', .error e) →
      process_pdf_document_go processText processImage k st (c :: rest) =
        ((process_pdf_document_go processText processImage (k + 1) st' rest).1,
         ChunkOutcome.textError e ::
           (process_pdf_document_go processText processImage (k + 1) st' rest).2)) ∧
    (∀ (processText : ChunkProcessor (List Char × List Char))
       (processImage : ChunkProcessor (PChunk × Nat))
       (c : PChunk) (rest : List PChunk) (k : Nat) (st st' : GraphState)
       (e : List Char),
      c.ctype = ChunkKind.image →
      processImage (c, k + 1) st = (st', .error e) →
      process_pdf_document_go processText processImage k st (c :: rest) =
        ((process_pdf_document_go processText processImage (k + 1) st' rest).1,
         ChunkOutcome.imageError e ::
           (process_pdf_document_go processText processImage (k + 1) st' rest).2)) := by
  refine ⟨?_, ?_, ?_⟩
  · intro processText processImage chunks st
    exact process_pdf_document_go_length processText processImage chunks 0 st
  · intro processText processImage c rest k st st' e hc hp
    rw [process_pdf_document_go, hc, hp]
  · intro processText processImage c rest k st st' e hc hp
    rw [process_pdf_document_go, hc, hp]

/-- C8 (witness): two text chunks processed by an always-raising processor
still both get attempted and logged. -/
theorem process_pdf_document_partial_failure_tolerant_witness :
    (process_pdf_document
        (fun _ st => (st, Except.error "boom".data))
        (fun _ st => (st, Except.error "boom".data))
        [{ ctype := .text, content := "t1".data, page := 1, context := [] },
         { ctype := .image, content := "i.png".data, page := 1, context := [] }]
        GraphState.empty).2.length = 2 ∧
    ({ ctype := ChunkKind.text, content := "t1".data, page := 1,
       context := [] } : PChunk).ctype = ChunkKind.text ∧
    process_pdf_document_go
        (fun _ st => (st, Except.error "boom".data))
        (fun _ st => (st, Except.error "boom".data)) 0 GraphState.empty
        [{ ctype := .text, content := "t1".data, page := 1, context := [] },
         { ctype := .image, content := "i.png".data, page := 1, context := [] }] =
      ((process_pdf_document_go
          (fun _ st => (st, Except.error "boom".data))
          (fun _ st => (st, Except.error "boom".data)) 1 GraphState.empty
          [{ ctype := .image, content := "i.png".data, page := 1,
             context := [] }]).1,
       ChunkOutcome.textError "boom".data ::
         (process_pdf_document_go
            (fun _ st => (st, Except.error "boom".data))
            (fun _ st => (st, Except.error "boom".data)) 1 GraphState.empty
            [{ ctype := .image, content := "i.png".data, page := 1,
               context := [] }]).2) :=
  ⟨process_pdf_document_partial_failure_tolerant.1 _ _ _ _,
   rfl,
   process_pdf_document_partial_failure_tolerant.2.1 _ _ _ _ 0 _ _ _ rfl rfl⟩

/-! ## C3 — parse failures: adapter vs. per-chunk pipeline -/

/-- C3 (counterexample): with a triples payload that fails structural
parsing, `process_chunk` propagates `json.JSONDecodeError` out of
`save_extraction_results` — the chunk's downstream steps run on no input at
all, not on the empty structure: the result is the error, not the
`.ok` outcome of loading empty extractions. -/
theorem process_chunk_parse_failure_counterexample :
    process_chunk (fun _ => none) (fun _ => some { entity_index := [] })
      GraphState.empty "this is not structured data".data "kv".data =
      Except.error "JSONDecodeError".data ∧
    (Except.error "JSONDecodeError".data :
        Except (List Char) (GraphState × Bool)) ≠
      Except.ok (load_lightrag_data GraphState.empty [] [] [], true) := by
  constructor
  · rfl
  · intro h
    exact Except.noConfusion h

/-- C3 (amended): on a parse failure the multimodal **adapter**
(`extract_entities_from_description`) does return the empty-but-valid
`{entities: [], relationships: []}` instead of raising; but the per-chunk
**text pipeline** (`process_chunk` via `save_extraction_results`) has no
such fallback: `json.loads` raises, the chunk's downstream steps (the graph
load) are never attempted, and the failure is only caught one level up, at
the per-document loop (C8), which moves on to the next chunk. -/
theorem parse_failure_handling (parseTriples : List Char → Option Extraction)
    (parseKV : List Char → Option KeyValues) (st : GraphState)
    (response triples key_values : List Char)
    (hr : parseTriples (clean_code_fence response) = none)
    (ht : parseTriples (clean_code_fence triples) = none) :
    extract_entities_from_description parseTriples response =
      { entities := [], relationships := [] } ∧
    process_chunk parseTriples parseKV st triples key_values =
      Except.error "JSONDecodeError".data := by
  constructor
  · rw [extract_entities_from_description, hr]
  · rw [process_chunk, save_extraction_results, ht]

/-- C3 (witness): the amended theorem at a concrete failing payload. -/
theorem parse_failure_handling_witness :
    (fun (_ : List Char) => (none : Option Extraction))
        (clean_code_fence "oops".data) = none ∧
    extract_entities_from_description (fun _ => none) "oops".data =
      { entities := [], relationships := [] } ∧
    process_chunk (fun _ => none) (fun _ => some { entity_index := [] })
      GraphState.empty "oops".data "kv".data =
      Except.error "JSONDecodeError".data :=
  ⟨rfl,
   (parse_failure_handling (fun _ => none) (fun _ => some { entity_index := [] })
      GraphState.empty "oops".data "oops".data "kv".data rfl rfl).1,
   (parse_failure_handling (fun _ => none) (fun _ => some { entity_index := [] })
      GraphState.empty "oops".data "oops".data "kv".data rfl rfl).2⟩

/-! ## C9 — identifier sanitization is path-dependent -/

/-- Single-character `str.replace` is a character map. -/
theorem pyReplaceGo_single (a b : Char) :
    ∀ (fuel : Nat) (s : List Char), s.length ≤ fuel →
      pyReplaceGo [a] [b] fuel s =
        s.map (fun c => if c = a then b else c) := by
  intro fuel
  induction fuel with
  | zero =>
    intro s hs
    rw [List.eq_nil_of_length_eq_zero (Nat.le_zero.mp hs)]
    rfl
  | succ f ih =>
    intro s hs
    match s with
    | [] => rfl
    | c :: rest =>
      rw [pyReplaceGo]
      by_cases hc : c = a
      · subst hc
        rw [if_pos (by simp [List.isPrefixOf])]
        simp only [List.length_cons, List.length_nil, List.drop_succ_cons,
          List.drop_zero]
        rw [ih rest (Nat.le_of_succ_le_succ hs)]
        simp
      · rw [if_neg (by simp [List.isPrefixOf, Ne.symm hc])]
        rw [ih rest (Nat.le_of_succ_le_succ hs)]
        simp [hc]

theorem pyReplace_single (a b : Char) (s : List Char) :
    pyReplace [a] [b] s = s.map (fun c => if c = a then b else c) := by
  rw [pyReplace]
  exact pyReplaceGo_single a b s.length s le_rfl

/-- `sanitize_label` is a character map. -/
theorem sanitize_label_map (s : List Char) :
    sanitize_label s = s.map (fun c =>
      if (if c = ' ' then '_' else c) = '-' then '_'
      else if c = ' ' then '_' else c) := by
  rw [sanitize_label, pyReplace_single, pyReplace_single, List.map_map]
  rfl

/-- `sanitize_label` is idempotent. -/
theorem sanitize_label_idem (s : List Char) :
    sanitize_label (sanitize_label s) = sanitize_label s := by
  rw [sanitize_label_map, sanitize_label_map, List.map_map]
  apply List.map_congr_left
  intro c _
  by_cases h1 : c = ' '
  · subst h1; rfl
  · by_cases h2 : c = '-'
    · subst h2; rfl
    · simp [h1, h2]


/-- A fold whose every step keeps all store nodes sanitize-normal keeps the
whole fold sanitize-normal. -/
theorem foldl_nodes_sanitized {α : Type} (f : GraphState → α → GraphState)
    (hf : ∀ (st : GraphState) (a : α),
      (∀ node ∈ st.nodes, sanitized_node node) →
      ∀ node ∈ (f st a).nodes, sanitized_node node) :
    ∀ (l : List α) (st : GraphState),
      (∀ node ∈ st.nodes, sanitized_node node) →
      ∀ node ∈ (l.foldl f st).nodes, sanitized_node node := by
  intro l
  induction l with
  | nil => intro st hst; exact hst
  | cons a rest ih =>
    intro st hst
    exact ih (f st a) (hf st a hst)

/-- `create_entity` with sanitize-normal arguments keeps the store
sanitize-normal (the matched branch only rewrites `props`). -/
theorem create_entity_sanitized (st : GraphState) (n t : List Char)
    (p : List (List Char × List Char))
    (hst : ∀ node ∈ st.nodes, sanitized_node node)
    (hn : sanitize_label n = n) (ht : sanitize_label t = t) :
    ∀ node ∈ (create_entity st n t p).nodes, sanitized_node node := by
  rw [create_entity]
  split
  · intro node hmem
    rw [List.mem_map] at hmem
    obtain ⟨orig, ho, rfl⟩ := hmem
    have := hst orig ho
    split
    · exact this
    · exact this
  · intro node hmem
    rw [List.mem_append] at hmem
    rcases hmem with h | h
    · exact hst node h
    · rw [List.mem_singleton] at h
      subst h
      exact ⟨hn, ht⟩

/-- `create_relationship` never touches the node list. -/
theorem create_relationship_nodes (st : GraphState)
    (source target relation_type : List Char)
    (properties : List (List Char × List Char)) :
    ((create_relationship st source target relation_type properties).1).nodes =
      st.nodes := by
  rw [create_relationship]
  split
  · split <;> rfl
  · rfl

/-- `add_entity_index` only rewrites `props`, keeping sanitize-normality. -/
theorem add_entity_index_sanitized (st : GraphState) (n summary : List Char)
    (hst : ∀ node ∈ st.nodes, sanitized_node node) :
    ∀ node ∈ (add_entity_index st n summary).nodes, sanitized_node node := by
  rw [add_entity_index]
  intro node hmem
  rw [List.mem_map] at hmem
  obtain ⟨orig, ho, rfl⟩ := hmem
  have := hst orig ho
  split
  · exact this
  · exact this

/-- `create_entity` leaves some node carrying the requested name. -/
theorem create_entity_exists_name (st : GraphState) (n t : List Char)
    (p : List (List Char × List Char)) :
    ∃ node ∈ (create_entity st n t p).nodes, node.name = n := by
  rw [create_entity]
  split
  · rename_i hmatch
    rw [List.any_eq_true] at hmatch
    obtain ⟨orig, ho, hcond⟩ := hmatch
    simp only [decide_eq_true_eq] at hcond
    refine ⟨if orig.label = t ∧ orig.name = n then
      { orig with props := mergeProps orig.props p } else orig,
      List.mem_map_of_mem _ ho, ?_⟩
    rw [if_pos hcond]
    exact hcond.2
  · exact ⟨_, List.mem_append_right _ (List.mem_singleton_self _), rfl⟩

/-- `create_entity` never loses a node name already present. -/
theorem create_entity_preserves_name (st : GraphState) (n t x : List Char)
    (p : List (List Char × List Char))
    (h : ∃ node ∈ st.nodes, node.name = x) :
    ∃ node ∈ (create_entity st n t p).nodes, node.name = x := by
  obtain ⟨orig, ho, hx⟩ := h
  rw [create_entity]
  split
  · refine ⟨if orig.label = t ∧ orig.name = n then
      { orig with props := mergeProps orig.props p } else orig,
      List.mem_map_of_mem _ ho, ?_⟩
    split <;> exact hx
  · exact ⟨orig, List.mem_append_left _ ho, hx⟩

/-- One step of the multimodal entity loop (`create_entity` then
`create_relationship`) makes the raw entity name present and keeps every
name already present. -/
theorem multimodal_step_names (st : GraphState) (anchor : List Char)
    (entity : EntityRec) :
    (∃ node ∈ ((create_relationship (create_entity st entity.name entity.type [])
        entity.name anchor "BELONGS_TO".data []).1).nodes,
      node.name = entity.name) ∧
    (∀ x, (∃ node ∈ st.nodes, node.name = x) →
      ∃ node ∈ ((create_relationship (create_entity st entity.name entity.type [])
          entity.name anchor "BELONGS_TO".data []).1).nodes,
        node.name = x) := by
  constructor
  · rw [create_relationship_nodes]
    exact create_entity_exists_name st entity.name entity.type []
  · intro x hx
    rw [create_relationship_nodes]
    exact create_entity_preserves_name st entity.name entity.type x [] hx

/-- The multimodal entity loop keeps every name already present. -/
theorem multimodal_fold_preserves (anchor x : List Char) :
    ∀ (l : List EntityRec) (st : GraphState),
      (∃ node ∈ st.nodes, node.name = x) →
      ∃ node ∈ (l.foldl (fun st entity =>
          (create_relationship (create_entity st entity.name entity.type [])
            entity.name anchor "BELONGS_TO".data []).1) st).nodes,
        node.name = x := by
  intro l
  induction l with
  | nil => intro st h; exact h
  | cons a rest ih =>
    intro st h
    rw [List.foldl_cons]
    exact ih _ ((multimodal_step_names st anchor a).2 x h)

/-- The multimodal entity loop makes every extracted raw name present. -/
theorem multimodal_fold_names (anchor : List Char) :
    ∀ (l : List EntityRec) (st : GraphState) (e : EntityRec), e ∈ l →
      ∃ node ∈ (l.foldl (fun st entity =>
          (create_relationship (create_entity st entity.name entity.type [])
            entity.name anchor "BELONGS_TO".data []).1) st).nodes,
        node.name = e.name := by
  intro l
  induction l with
  | nil => intro st e he; exact absurd he (List.not_mem_nil e)
  | cons a rest ih =>
    intro st e he
    rw [List.foldl_cons]
    rcases List.mem_cons.mp he with rfl | he
    · exact multimodal_fold_preserves anchor e.name rest _
        (multimodal_step_names st anchor e).1
    · exact ih _ e he

/-- C9 (counterexample): on the multimodal path the store receives raw
identifiers: extracting the entity `"Heart Disease"` from an image
description puts a node literally named `"Heart Disease"` into the store —
`sanitize_label` (which would give `"Heart_Disease"`) is never applied on
this path. -/
theorem multimodal_sanitization_counterexample :
    ((create_multimodal_graph
        (fun _ => some { entities := [{ name := "Heart Disease".data,
                                        type := "Medical Condition".data }],
                         relationships := [] })
        GraphState.empty "fig.png".data "desc".data "3".data
        "resp".data).1).nodes.any
      (fun node => ¬ sanitize_label node.name = node.name) = true := by
  decide

/-- C9 (amended): identifier sanitization happens on the text/loader path
only.  `load_lightrag_data` passes every entity name, type, relationship
endpoint and index key through `sanitize_label`, so a sanitize-normal store
stays sanitize-normal; but `create_multimodal_graph` passes the extracted
entity names (and types) to the store verbatim: every raw extracted name
ends up as a node name unchanged. -/
theorem sanitization_path_dependent :
    (∀ (st : GraphState) (es : List EntityRec) (rs : List RelationRec)
        (ix : List IndexRec),
      (∀ node ∈ st.nodes, sanitized_node node) →
      ∀ node ∈ (load_lightrag_data st es rs ix).nodes, sanitized_node node) ∧
    (∀ (parseTriples : List Char → Option Extraction) (st : GraphState)
        (image_path desc chunk_id response : List Char) (ext : Extraction)
        (e : EntityRec),
      parseTriples (clean_code_fence response) = some ext →
      e ∈ ext.entities →
      ∃ node ∈ ((create_multimodal_graph parseTriples st image_path desc
          chunk_id response).1).nodes, node.name = e.name) := by
  constructor
  · intro st es rs ix hst
    rw [load_lightrag_data]
    apply foldl_nodes_sanitized
    · intro st' idx hst'
      dsimp only []
      exact add_entity_index_sanitized st' (sanitize_label idx.key) idx.value hst'
    apply foldl_nodes_sanitized
    · intro st' r hst'
      dsimp only []
      rw [create_relationship_nodes]
      exact hst'
    apply foldl_nodes_sanitized
    · intro st' e hst'
      dsimp only []
      split
      · exact hst'
      · exact create_entity_sanitized st' (sanitize_label e.name)
          (sanitize_label e.type) [] hst' (sanitize_label_idem e.name)
          (sanitize_label_idem e.type)
    exact hst
  · intro parseTriples st image_path desc chunk_id response ext e hparse he
    rw [create_multimodal_graph]
    dsimp only []
    rw [hparse]
    exact multimodal_fold_names ("Image_".data ++ chunk_id) ext.entities _ e he

/-- C9 (witness): the amended theorem at concrete inputs — the loader
sanitizes `"Heart Disease"`/`"Medical-Condition"` into underscores, while
the multimodal path stores `"Heart Disease"` verbatim. -/
theorem sanitization_path_dependent_witness :
    sanitized_node { label := "Medical_Condition".data,
                     name := "Heart_Disease".data, props := [] } ∧
    (∃ node ∈ ((create_multimodal_graph
        (fun _ => some { entities := [{ name := "Heart Disease".data,
                                        type := "Medical Condition".data }],
                         relationships := [] })
        GraphState.empty "fig.png".data "desc".data "3".data
        "resp".data).1).nodes, node.name = "Heart Disease".data) :=
  ⟨sanitization_path_dependent.1 GraphState.empty
      [{ name := "Heart Disease".data, type := "Medical-Condition".data }]
      [] [] (fun node h => absurd h (List.not_mem_nil node))
      { label := "Medical_Condition".data, name := "Heart_Disease".data,
        props := [] } (by decide),
   sanitization_path_dependent.2 _ GraphState.empty "fig.png".data "desc".data
     "3".data "resp".data _
     { name := "Heart Disease".data, type := "Medical Condition".data }
     rfl (by decide)⟩

/-! ## C6 — placeholder substitution purity -/

/-- Enough fuel makes `pyReplaceGo` fuel-independent (each step consumes at
least one character). -/
theorem pyReplaceGo_fuel (hd : Char) (tl v : List Char) :
    ∀ (n : Nat) (s : List Char) (m : Nat), s.length ≤ n → s.length ≤ m →
      pyReplaceGo (hd :: tl) v n s = pyReplaceGo (hd :: tl) v m s := by
  intro n
  induction n with
  | zero =>
    intro s m hn _
    rw [List.eq_nil_of_length_eq_zero (Nat.le_zero.mp hn)]
    cases m <;> rfl
  | succ n ih =>
    intro s m hn hm
    match s, m with
    | [], m => cases m <;> rfl
    | c :: rest, 0 => exact absurd hm (by simp)
    | c :: rest, m + 1 =>
      rw [pyReplaceGo, pyReplaceGo]
      have hr : rest.length ≤ n := Nat.le_of_succ_le_succ hn
      have hr' : rest.length ≤ m := Nat.le_of_succ_le_succ hm
      split
      · have hd1 : (List.drop (hd :: tl).length (c :: rest)).length ≤ rest.length := by
          simp [List.length_drop]
        rw [ih _ m (le_trans hd1 hr) (le_trans hd1 hr')]
      · rw [ih _ m hr hr']

/-- `str.replace` steps over a position where the pattern does not match. -/
theorem pyReplace_cons_neg (hd : Char) (tl v : List Char) (c : Char)
    (rest : List Char) (h : (hd :: tl).isPrefixOf (c :: rest) = false) :
    pyReplace (hd :: tl) v (c :: rest) = c :: pyReplace (hd :: tl) v rest := by
  rw [pyReplace, pyReplace]
  rw [List.length_cons, pyReplaceGo, if_neg (by simp [h])]

/-- `str.replace` rewrites a matched position and skips the pattern. -/
theorem pyReplace_match (hd : Char) (tl v s : List Char)
    (h : (hd :: tl).isPrefixOf s = true) :
    pyReplace (hd :: tl) v s =
      v ++ pyReplace (hd :: tl) v (s.drop (hd :: tl).length) := by
  match s with
  | [] => simp [List.isPrefixOf] at h
  | c :: rest =>
    rw [pyReplace, pyReplace]
    rw [List.length_cons, pyReplaceGo, if_pos (by simp [h])]
    congr 1
    apply pyReplaceGo_fuel
    · calc (List.drop (hd :: tl).length (c :: rest)).length
          ≤ rest.length := by simp [List.length_drop]
      _ ≤ rest.length := le_rfl
    · exact le_rfl

/-- `str.replace` is the identity when the pattern occurs nowhere. -/
theorem pyReplace_of_not_infix (hd : Char) (tl v : List Char) :
    ∀ (s : List Char), ¬ ((hd :: tl) <:+: s) →
      pyReplace (hd :: tl) v s = s := by
  intro s
  induction s with
  | nil => intro _; rfl
  | cons c rest ih =>
    intro h
    rw [pyReplace_cons_neg hd tl v c rest ?_]
    · rw [ih (fun hi => h (List.infix_cons hi))]
    · rw [Bool.eq_false_iff]
      intro hp
      exact h (List.IsPrefix.isInfix (List.isPrefixOf_iff_prefix.mp hp))

/-- Scanning lemma: when the pattern cannot start anywhere inside
`A ++ pat.dropLast`, replacing in `A ++ pat ++ rest` rewrites exactly the
explicit occurrence and leaves `A` byte-for-byte. -/
theorem pyReplace_append (hd : Char) (tl v : List Char) :
    ∀ (A rest : List Char),
      ¬ ((hd :: tl) <:+: (A ++ (hd :: tl).dropLast)) →
      pyReplace (hd :: tl) v (A ++ (hd :: tl) ++ rest) =
        A ++ v ++ pyReplace (hd :: tl) v rest := by
  intro A
  induction A with
  | nil =>
    intro rest _
    rw [List.nil_append,
      pyReplace_match hd tl v _ (List.isPrefixOf_iff_prefix.mpr
        (List.prefix_append _ _)), List.drop_left]
    rfl
  | cons a A' ih =>
    intro rest hA
    have hstep : (hd :: tl).isPrefixOf
        (a :: (A' ++ (hd :: tl) ++ rest)) = false := by
      rw [Bool.eq_false_iff]
      intro hp
      apply hA
      have hmid : (a :: A') ++ (hd :: tl).dropLast <+:
          a :: (A' ++ (hd :: tl) ++ rest) := by
        rw [List.cons_append]
        apply (List.prefix_cons_inj a).mpr
        rw [List.append_assoc]
        obtain ⟨t, ht⟩ := List.IsPrefix.trans (List.dropLast_prefix (hd :: tl))
          (List.prefix_append (hd :: tl) rest)
        exact ⟨t, by rw [List.append_assoc, ht]⟩
      have hpre : (hd :: tl) <+: (a :: A') ++ (hd :: tl).dropLast := by
        apply List.prefix_of_prefix_length_le
          (List.isPrefixOf_iff_prefix.mp hp) hmid
        simp [List.length_dropLast]
      exact hpre.isInfix
    rw [show (a :: A') ++ (hd :: tl) ++ rest =
        a :: (A' ++ (hd :: tl) ++ rest) by simp,
      pyReplace_cons_neg hd tl v _ _ hstep,
      ih rest (fun hi => hA (by rw [List.cons_append]; exact List.infix_cons hi))]
    rfl

theorem intercalate_cons_cons {α : Type} (sep x y : List α)
    (zs : List (List α)) :
    List.intercalate sep (x :: y :: zs) =
      x ++ sep ++ List.intercalate sep (y :: zs) := by
  simp [List.intercalate, List.intersperse_cons_cons]

/-- Replacing the separator of an intercalation rewrites exactly the
separators when no part can host an occurrence of the pattern. -/
theorem pyReplace_intercalate (hd : Char) (tl v : List Char) :
    ∀ (parts : List (List Char)), parts ≠ [] →
      (∀ p ∈ parts, ¬ ((hd :: tl) <:+: (p ++ (hd :: tl).dropLast))) →
      pyReplace (hd :: tl) v (List.intercalate (hd :: tl) parts) =
        List.intercalate v parts := by
  intro parts
  induction parts with
  | nil => intro h _; exact absurd rfl h
  | cons p rest ih =>
    intro _ hp
    match rest with
    | [] =>
      simp only [List.intercalate, List.intersperse, List.flatten,
        List.append_nil]
      apply pyReplace_of_not_infix
      intro hi
      exact hp p (List.mem_singleton_self p)
        (hi.trans (List.prefix_append p _).isInfix)
    | q :: rest' =>
      rw [intercalate_cons_cons, intercalate_cons_cons,
        pyReplace_append hd tl v p _ (hp p (List.mem_cons_self p _)),
        ih (by simp) (fun r hr => hp r (List.mem_cons_of_mem p hr))]

/-- C6: placeholder substitution purity.  For every template assembled from
literal segments (each free of the `{question}` token, e.g. JSON examples
with their own braces) joined by `{question}` occurrences, and every value,
`_safe_format` replaces exactly the `{question}` occurrences and reproduces
every other byte of the template unchanged. -/
theorem placeholder_substitution_purity (v : List Char)
    (parts : List (List Char)) (hne : parts ≠ [])
    (hp : ∀ p ∈ parts,
      ¬ ("{question}".data <:+: (p ++ "{question}".data.dropLast))) :
    safe_format [("question".data, v)]
      (List.intercalate "{question}".data parts) = List.intercalate v parts := by
  have hpat : "{question}".data = '{' :: "question\x7d".data := rfl
  rw [safe_format, List.foldl_cons, List.foldl_nil]
  rw [hpat] at hp ⊢
  show pyReplace ('{' :: "question\x7d".data) v
    (List.intercalate ('{' :: "question\x7d".data) parts) = List.intercalate v parts
  exact pyReplace_intercalate '{' "question\x7d".data v parts hne hp

/-- C6 (witness): a template holding a literal JSON example with braces and
one `{question}` slot; only the slot is replaced, the JSON example survives
byte-for-byte. -/
theorem placeholder_substitution_purity_witness :
    (¬ ("{question}".data <:+:
      ("Example output: \x7b\"entities\": []\x7d\nQuestion: ".data ++
        "{question}".data.dropLast))) ∧
    safe_format [("question".data, "What is AI?".data)]
      (List.intercalate "{question}".data
        ["Example output: \x7b\"entities\": []\x7d\nQuestion: ".data,
         " (end)".data]) =
      List.intercalate "What is AI?".data
        ["Example output: \x7b\"entities\": []\x7d\nQuestion: ".data,
         " (end)".data] :=
  ⟨by decide,
   placeholder_substitution_purity "What is AI?".data
     ["Example output: \x7b\"entities\": []\x7d\nQuestion: ".data,
      " (end)".data] (by simp)
     (by intro p hp; fin_cases hp <;> decide)⟩

/-! ## C5 — fence stripping: equations for the splitlines worker -/

theorem pySplitlinesGo_ne_nil : ∀ (s acc : List Char),
    pySplitlinesGo acc s ≠ [] := by
  intro s
  induction s with
  | nil => intro acc; simp [pySplitlinesGo]
  | cons c rest ih =>
    intro acc
    rw [pySplitlinesGo.eq_def]
    split
    · simp_all
    · simp
    · rename_i c' rest' heq
      rw [List.cons.injEq] at heq
      obtain ⟨rfl, rfl⟩ := heq
      split
      · simp
      · exact ih (c :: acc)

theorem pySplitlinesGo_cons_of_no_break (acc : List Char) (c : Char)
    (rest : List Char) (h : isLineBreak c = false) :
    pySplitlinesGo acc (c :: rest) = pySplitlinesGo (c :: acc) rest := by
  rw [pySplitlinesGo.eq_def]
  split
  · simp_all
  · rename_i heq
    rw [List.cons.injEq] at heq
    obtain ⟨rfl, -⟩ := heq
    simp [isLineBreak, lineBreakCodes] at h
  · rename_i c' rest' heq
    rw [List.cons.injEq] at heq
    obtain ⟨rfl, rfl⟩ := heq
    rw [if_neg (by simp [h])]

theorem pySplitlinesGo_cons_nl (acc rest : List Char) (hne : rest ≠ []) :
    pySplitlinesGo acc ('\n' :: rest) =
      acc.reverse :: pySplitlinesGo [] rest := by
  rw [pySplitlinesGo.eq_def]
  split
  · simp_all
  · rename_i heq
    rw [List.cons.injEq] at heq
    obtain ⟨h1, -⟩ := heq
    exact absurd h1 (by decide)
  · rename_i c' rest' heq
    rw [List.cons.injEq] at heq
    obtain ⟨rfl, rfl⟩ := heq
    rw [if_pos (by decide)]
    cases rest with
    | nil => exact absurd rfl hne
    | cons r rs => rfl

theorem pySplitlinesGo_singleton_nl (acc : List Char) :
    pySplitlinesGo acc ['\n'] = [acc.reverse] := rfl

theorem pySplitlines_of_ne_nil (s : List Char) (h : s ≠ []) :
    pySplitlines s = pySplitlinesGo [] s := by
  match s, h with
  | c :: rest, _ => rfl

/-- A break-free segment followed by a newline becomes one emitted line. -/
theorem pySplitlinesGo_no_break_append (B : List Char) (hB : B ≠ []) :
    ∀ (A acc : List Char), (∀ c ∈ A, isLineBreak c = false) →
      pySplitlinesGo acc (A ++ '\n' :: B) =
        (acc.reverse ++ A) :: pySplitlinesGo [] B := by
  intro A
  induction A with
  | nil =>
    intro acc _
    rw [List.nil_append, pySplitlinesGo_cons_nl acc B hB]
    simp
  | cons c A' ih =>
    intro acc hA
    rw [List.cons_append,
      pySplitlinesGo_cons_of_no_break _ c _ (hA c (List.mem_cons_self c A')),
      ih (c :: acc) (fun x hx => hA x (List.mem_cons_of_mem c hx))]
    simp


/-- Splitting a newline-pure body followed by `'\n'` and more input splits
the body's lines first (the trailing terminator closes the body's last
line, so the remainder starts fresh). -/
theorem pySplitlinesGo_nl_append (rest : List Char) (hrest : rest ≠ []) :
    ∀ (inner acc : List Char), nlPure inner →
      pySplitlinesGo acc (inner ++ '\n' :: rest) =
        pySplitlinesGo acc (inner ++ ['\n']) ++ pySplitlinesGo [] rest := by
  intro inner
  induction inner with
  | nil =>
    intro acc _
    rw [List.nil_append, List.nil_append,
      pySplitlinesGo_cons_nl acc rest hrest, pySplitlinesGo_singleton_nl]
    rfl
  | cons c inner' ih =>
    intro acc hpure
    by_cases hc : isLineBreak c = true
    · have hcn : c = '\n' := hpure c (List.mem_cons_self c inner') hc
      subst hcn
      rw [List.cons_append, List.cons_append,
        pySplitlinesGo_cons_nl acc _ (by simp),
        pySplitlinesGo_cons_nl acc _ (by simp),
        ih [] (fun x hx hb => hpure x (List.mem_cons_of_mem _ hx) hb)]
      rfl
    · rw [List.cons_append, List.cons_append,
        pySplitlinesGo_cons_of_no_break acc c _ (Bool.eq_false_iff.mpr hc),
        pySplitlinesGo_cons_of_no_break acc c _ (Bool.eq_false_iff.mpr hc),
        ih (c :: acc) (fun x hx hb => hpure x (List.mem_cons_of_mem _ hx) hb)]

theorem intercalate_cons_of_ne_nil {α : Type} (sep x : List α)
    (L : List (List α)) (h : L ≠ []) :
    List.intercalate sep (x :: L) = x ++ sep ++ List.intercalate sep L := by
  cases L with
  | nil => exact absurd rfl h
  | cons y zs => exact intercalate_cons_cons sep x y zs

/-- Rejoining the lines of a newline-pure body (terminated by `'\n'`) with
`'\n'` reproduces the body. -/
theorem pyJoin_pySplitlinesGo (inner : List Char) (hpure : nlPure inner) :
    ∀ (acc : List Char),
      pyJoin ['\n'] (pySplitlinesGo acc (inner ++ ['\n'])) =
        acc.reverse ++ inner := by
  induction inner with
  | nil =>
    intro acc
    rw [List.nil_append, pySplitlinesGo_singleton_nl, pyJoin]
    simp [List.intercalate]
  | cons c inner' ih =>
    intro acc
    by_cases hc : isLineBreak c = true
    · have hcn : c = '\n' := hpure c (List.mem_cons_self c inner') hc
      subst hcn
      rw [List.cons_append, pySplitlinesGo_cons_nl acc _ (by simp), pyJoin,
        intercalate_cons_of_ne_nil ['\n'] acc.reverse _
          (pySplitlinesGo_ne_nil _ []),
        ← pyJoin,
        ih (fun x hx hb => hpure x (List.mem_cons_of_mem _ hx) hb) []]
      simp
    · rw [List.cons_append,
        pySplitlinesGo_cons_of_no_break acc c _ (Bool.eq_false_iff.mpr hc),
        ih (fun x hx hb => hpure x (List.mem_cons_of_mem _ hx) hb) (c :: acc)]
      simp

/-- `str.strip` is the identity on strings with non-space ends. -/
theorem pyStrip_eq_self (s : List Char)
    (hhead : ∀ c, s.head? = some c → isPySpace c = false)
    (hlast : ∀ c, s.getLast? = some c → isPySpace c = false) :
    pyStrip s = s := by
  have h1 : s.dropWhile isPySpace = s := by
    cases s with
    | nil => rfl
    | cons c rest =>
      exact List.dropWhile_cons_of_neg (by simp [hhead c rfl])
  have h2 : s.reverse.dropWhile isPySpace = s.reverse := by
    cases hrev : s.reverse with
    | nil => rfl
    | cons c rest =>
      have hg : s.getLast? = some c := by
        rw [← List.head?_reverse, hrev]
        rfl
      exact List.dropWhile_cons_of_neg (by simp [hlast c hg])
  rw [pyStrip, h1, h2, List.reverse_reverse]

/-- `str.strip` is idempotent. -/
theorem pyStrip_idem (s : List Char) : pyStrip (pyStrip s) = pyStrip s := by
  have hps : pyStrip s =
      ((s.dropWhile isPySpace).reverse.dropWhile isPySpace).reverse := rfl
  by_cases hbe :
      (s.dropWhile isPySpace).reverse.dropWhile isPySpace = []
  · rw [hps, hbe]
    rfl
  · apply pyStrip_eq_self
    · intro x hx
      rw [hps, List.head?_reverse] at hx
      obtain ⟨pre, hpre⟩ :=
        List.dropWhile_suffix (l := (s.dropWhile isPySpace).reverse)
          (p := isPySpace)
      have hga : (s.dropWhile isPySpace).reverse.getLast? = some x := by
        rw [← hpre, List.getLast?_append_of_ne_nil pre hbe]
        exact hx
      rw [List.getLast?_reverse] at hga
      have ha_ne : s.dropWhile isPySpace ≠ [] := by
        intro h
        rw [h] at hga
        exact Option.noConfusion hga
      have hhd := List.head_dropWhile_not isPySpace s ha_ne
      have hx2 : (s.dropWhile isPySpace).head ha_ne = x := by
        have := List.head?_eq_head (l := s.dropWhile isPySpace) ha_ne
        rw [this] at hga
        exact Option.some.inj hga
      rw [hx2] at hhd
      exact hhd
    · intro x hx
      rw [hps, List.getLast?_reverse] at hx
      have hhd := List.head_dropWhile_not isPySpace
        (s.dropWhile isPySpace).reverse hbe
      have hx2 : ((s.dropWhile isPySpace).reverse.dropWhile isPySpace).head
          hbe = x := by
        have := List.head?_eq_head
          (l := (s.dropWhile isPySpace).reverse.dropWhile isPySpace) hbe
        rw [this] at hx
        exact Option.some.inj hx
      rw [hx2] at hhd
      exact hhd

/-- Cleaning a payload wrapped once — a leading fence line (fence plus
break-free info string) and a trailing bare fence line — yields the
whitespace-stripped inner payload, provided the payload's line endings are
plain newlines. -/
theorem clean_code_fence_wrapped (info inner : List Char)
    (hinfo : ∀ c ∈ info, isLineBreak c = false)
    (hpure : nlPure inner) :
    clean_code_fence
      ("```".data ++ (info ++ ('\n' :: (inner ++ ('\n' :: "```".data))))) =
      pyStrip inner := by
  have hW : "```".data ++ (info ++ ('\n' :: (inner ++ ('\n' :: "```".data)))) =
      '`' :: ('`' :: ('`' ::
        (info ++ ('\n' :: (inner ++ ('\n' :: "```".data)))))) := rfl
  have hstrip :
      pyStrip ("```".data ++
        (info ++ ('\n' :: (inner ++ ('\n' :: "```".data))))) =
      "```".data ++ (info ++ ('\n' :: (inner ++ ('\n' :: "```".data)))) := by
    apply pyStrip_eq_self
    · intro c hc
      rw [hW, List.head?_cons] at hc
      obtain rfl := Option.some.inj hc
      decide
    · intro c hc
      rw [List.getLast?_append_of_ne_nil "```".data
        (by simp : (info ++ ('\n' :: (inner ++ ('\n' :: "```".data)))) ≠ [])]
        at hc
      rw [List.getLast?_append_of_ne_nil info
        (by simp : ('\n' :: (inner ++ ('\n' :: "```".data))) ≠ [])] at hc
      rw [show ('\n' :: (inner ++ ('\n' :: "```".data))) =
          ['\n'] ++ (inner ++ ('\n' :: "```".data)) from rfl,
        List.getLast?_append_of_ne_nil ['\n']
          (by simp : (inner ++ ('\n' :: "```".data)) ≠ [])] at hc
      rw [List.getLast?_append_of_ne_nil inner
        (by simp : ('\n' :: "```".data) ≠ [])] at hc
      rw [show ('\n' :: "```".data) = ['\n'] ++ "```".data from rfl,
        List.getLast?_append_of_ne_nil ['\n']
          (by simp : "```".data ≠ [])] at hc
      rw [show "```".data.getLast? = some '`' from rfl] at hc
      obtain rfl := Option.some.inj hc
      decide
  have hfence : "```".data.isPrefixOf
      ("```".data ++ (info ++ ('\n' :: (inner ++ ('\n' :: "```".data))))) =
        true := by
    rw [List.isPrefixOf_iff_prefix]
    exact List.prefix_append _ _
  have hassoc :
      "```".data ++ (info ++ ('\n' :: (inner ++ ('\n' :: "```".data)))) =
      ("```".data ++ info) ++ ('\n' :: (inner ++ ('\n' :: "```".data))) :=
    (List.append_assoc _ _ _).symm
  have hlines :
      pySplitlines
        ("```".data ++ (info ++ ('\n' :: (inner ++ ('\n' :: "```".data))))) =
      ("```".data ++ info) ::
        pySplitlinesGo [] (inner ++ ('\n' :: "```".data)) := by
    rw [pySplitlines_of_ne_nil _ (by rw [hW]; exact List.cons_ne_nil _ _),
      hassoc]
    have hsegs := pySplitlinesGo_no_break_append
      (inner ++ ('\n' :: "```".data)) (by simp) ("```".data ++ info) []
      (by
        intro c hc
        rcases List.mem_append.mp hc with h | h
        · fin_cases h <;> decide
        · exact hinfo c h)
    rw [hsegs]
    rfl
  have hsplit2 :
      pySplitlinesGo [] (inner ++ ('\n' :: "```".data)) =
      pySplitlinesGo [] (inner ++ ['\n']) ++ ["```".data] := by
    rw [pySplitlinesGo_nl_append "```".data (by simp) inner [] hpure]
    rfl
  rw [clean_code_fence]
  dsimp only []
  rw [hstrip, if_pos hfence, hlines, List.drop_one, List.tail_cons, hsplit2,
    List.getLast?_concat]
  dsimp only []
  rw [if_pos (by decide), List.dropLast_concat,
    pyJoin_pySplitlinesGo inner hpure []]
  rfl

/-- C5 (counterexample): fence stripping is neither the identity on
unfenced strings (it whitespace-strips: `" x"` becomes `"x"`) nor idempotent
in general: on `"```\n```\nx"` one application leaves `"```\nx"`, whose
leading fence a second application strips again, producing `"x"`. -/
theorem clean_code_fence_counterexample :
    clean_code_fence " x".data ≠ " x".data ∧
    clean_code_fence (clean_code_fence "```\n```\nx".data) ≠
      clean_code_fence "```\n```\nx".data := by
  constructor <;> decide

/-- C5 (amended): `clean_code_fence` first whitespace-strips its input.
On every input whose stripped form has no leading fence it returns the
stripped input (so it is the identity only up to stripping), and it is
idempotent on all such inputs; a payload wrapped exactly once in a leading
fence line and a trailing fence line yields the whitespace-stripped inner
payload (exactly the inner content when that content is strip-invariant),
provided the payload's line terminators are plain newlines.  Idempotence
fails only when the fenced body itself begins with a fence line (see the
counterexample). -/
theorem clean_code_fence_behaviour :
    (∀ s : List Char, "```".data.isPrefixOf (pyStrip s) = false →
      clean_code_fence s = pyStrip s) ∧
    (∀ s : List Char, "```".data.isPrefixOf (pyStrip s) = false →
      clean_code_fence (clean_code_fence s) = clean_code_fence s) ∧
    (∀ info inner : List Char, (∀ c ∈ info, isLineBreak c = false) →
      nlPure inner →
      clean_code_fence
        ("```".data ++ (info ++ ('\n' :: (inner ++ ('\n' :: "```".data))))) =
        pyStrip inner) := by
  have hid : ∀ s, "```".data.isPrefixOf (pyStrip s) = false →
      clean_code_fence s = pyStrip s := by
    intro s h
    rw [clean_code_fence]
    dsimp only []
    rw [if_neg (by simp [h])]
  refine ⟨hid, ?_, clean_code_fence_wrapped⟩
  intro s h
  rw [hid s h]
  have h2 : "```".data.isPrefixOf (pyStrip (pyStrip s)) = false := by
    rw [pyStrip_idem]
    exact h
  rw [hid (pyStrip s) h2, pyStrip_idem]

/-- C5 (witness): the amended theorem at concrete payloads — an unfenced
payload, and a JSON body wrapped once in a `json`-tagged fence. -/
theorem clean_code_fence_behaviour_witness :
    "```".data.isPrefixOf (pyStrip " plain payload".data) = false ∧
    clean_code_fence " plain payload".data = pyStrip " plain payload".data ∧
    clean_code_fence (clean_code_fence " plain payload".data) =
      clean_code_fence " plain payload".data ∧
    clean_code_fence
      ("```".data ++ ("json".data ++
        ('\n' :: ("\x7b\"a\": 1\x7d".data ++ ('\n' :: "```".data))))) =
      pyStrip "\x7b\"a\": 1\x7d".data :=
  ⟨by decide,
   clean_code_fence_behaviour.1 _ (by decide),
   clean_code_fence_behaviour.2.1 _ (by decide),
   clean_code_fence_behaviour.2.2 "json".data "\x7b\"a\": 1\x7d".data
     (by decide) (by unfold nlPure; decide)⟩

/-! ## C2 — chunk positions and insertion renumbering -/


/-- The paragraph loop emits chunks positioned `pos, pos+1, …` and returns
the counter advanced by the number of emitted chunks. -/
theorem add_page_paragraphs_spec (page_num : Nat) :
    ∀ (paras : List (List Char)) (position : Nat),
      (add_page_paragraphs page_num position paras).2 =
        position + (add_page_paragraphs page_num position paras).1.length ∧
      (add_page_paragraphs page_num position paras).1.map
          (fun c => c.position) =
        List.range' position
          (add_page_paragraphs page_num position paras).1.length := by
  intro paras
  induction paras with
  | nil => intro position; exact ⟨rfl, rfl⟩
  | cons para rest ih =>
    intro position
    rw [add_page_paragraphs]
    split
    · rcases hres : add_page_paragraphs page_num (position + 1) rest
        with ⟨cs, position'⟩
      have hspec := ih (position + 1)
      rw [hres] at hspec
      dsimp only [] at hspec
      simp only [hres]
      constructor
      · simp only [List.length_cons]
        rw [hspec.1]
        omega
      · simp only [List.map_cons, List.length_cons, List.range'_succ]
        rw [hspec.2]
    · exact ih position

/-- The page loop emits chunks positioned `pos, pos+1, …` across pages. -/
theorem add_pages_spec :
    ∀ (pages : List (List Char)) (page_num position : Nat),
      (add_pages page_num position pages).2 =
        position + (add_pages page_num position pages).1.length ∧
      (add_pages page_num position pages).1.map (fun c => c.position) =
        List.range' position (add_pages page_num position pages).1.length := by
  intro pages
  induction pages with
  | nil => intro page_num position; exact ⟨rfl, rfl⟩
  | cons text rest ih =>
    intro page_num position
    rw [add_pages]
    rcases h1 : add_page_paragraphs page_num position
      (pySplit "\n\n".data text) with ⟨cs, position'⟩
    rcases h2 : add_pages (page_num + 1) position' rest with ⟨cs', position''⟩
    have hs1 := add_page_paragraphs_spec page_num (pySplit "\n\n".data text)
      position
    rw [h1] at hs1
    dsimp only [] at hs1
    have hs2 := ih (page_num + 1) position'
    rw [h2] at hs2
    dsimp only [] at hs2
    simp only [h1, h2]
    constructor
    · simp only [List.length_append]
      rw [hs2.1, hs1.1]
      omega
    · simp only [List.map_append, List.length_append]
      rw [hs1.2, hs2.2, hs1.1]
      have hra := List.range'_append position cs.length cs'.length 1
      rw [Nat.one_mul] at hra
      rw [Nat.add_comm cs.length cs'.length, ← hra]

/-- The estimated insertion index never exceeds the list length. -/
theorem estimate_image_position_le (chunks : List DChunk) (page_num : Nat) :
    estimate_image_position chunks page_num ≤ chunks.length := by
  rw [estimate_image_position]
  split
  · exact le_rfl
  · rename_i i rest heq
    have hlen : (i :: rest).length / 2 < (i :: rest).length :=
      Nat.div_lt_self (by simp) (by omega)
    rw [← heq] at hlen
    have hgd := List.getD_eq_getElem?_getD
      ((List.range chunks.length).filter (fun i =>
        match chunks[i]? with
        | some c => c.page = page_num
        | none => false))
      (((List.range chunks.length).filter (fun i =>
        match chunks[i]? with
        | some c => c.page = page_num
        | none => false)).length / 2) 0
    rw [hgd, List.getElem?_eq_getElem hlen]
    have hmem := List.getElem_mem hlen
    have := List.mem_filter.mp hmem
    have hr := List.mem_range.mp this.1
    simpa using Nat.le_of_lt hr

/-- Python `list.insert` at index `|A|` inserts between `A` and `B`. -/
theorem pyInsert_eq_append (x : DChunk) :
    ∀ (A B : List DChunk), pyInsert x A.length (A ++ B) = A ++ x :: B := by
  intro A
  induction A with
  | nil => intro B; rfl
  | cons a A' ih =>
    intro B
    rw [List.length_cons, List.cons_append, pyInsert, ih]
    rfl

/-- When every element's position trails its slot by one, the renumbering
loop is exactly "shift every position up by one". -/
theorem renumber_from_eq_map (start : Nat) :
    ∀ (B : List DChunk) (i : Nat), start ≤ i →
      (∀ j (h : j < B.length), (B.get ⟨j, h⟩).position + 1 = i + j) →
      renumber_from start i B =
        B.map (fun c => { c with position := c.position + 1 }) := by
  intro B
  induction B with
  | nil => intro i _ _; rfl
  | cons b rest ih =>
    intro i hle hpos
    rw [renumber_from, if_pos hle, List.map_cons]
    have hb := hpos 0 (by simp)
    simp only [List.get] at hb
    congr 1
    · rw [show i = b.position + 1 from by omega]
    · refine ih (i + 1) (by omega) (fun j h => ?_)
      have hj := hpos (j + 1) (by simpa using Nat.succ_lt_succ h)
      simp only [List.get] at hj
      omega

/-- Slots wholly before `start` are left untouched by the renumber loop. -/
theorem renumber_from_of_le (start : Nat) :
    ∀ (l : List DChunk) (k : Nat), k + l.length ≤ start →
      renumber_from start k l = l := by
  intro l
  induction l with
  | nil => intro k _; rfl
  | cons c rest ih =>
    intro k hk
    rw [renumber_from, if_neg (by simp at hk ⊢; omega), ih (k + 1) (by
      simp at hk ⊢
      omega)]

/-- The renumber loop distributes over append. -/
theorem renumber_from_append (start : Nat) :
    ∀ (l1 l2 : List DChunk) (k : Nat),
      renumber_from start k (l1 ++ l2) =
        renumber_from start k l1 ++
          renumber_from start (k + l1.length) l2 := by
  intro l1
  induction l1 with
  | nil => intro l2 k; simp [renumber_from]
  | cons c rest ih =>
    intro l2 k
    rw [List.cons_append, renumber_from, renumber_from, ih l2 (k + 1),
      List.cons_append, List.length_cons,
      show k + 1 + rest.length = k + (rest.length + 1) from by omega]

/-- Position invariant, element-wise: the chunk in slot `i` has position
`i`. -/
theorem PosOk_get (l : List DChunk) (h : PosOk l) :
    ∀ (i : Nat) (hi : i < l.length), (l.get ⟨i, hi⟩).position = i := by
  intro i hi
  have hq : (l.map (fun c => c.position))[i]? = (List.range l.length)[i]? := by
    rw [h]
  rw [List.getElem?_map, List.getElem?_range hi,
    List.getElem?_eq_getElem hi, Option.map_some'] at hq
  have := Option.some.inj hq
  rw [List.get_eq_getElem]
  exact this

/-- `pyInsert` at an index equal to the prefix length. -/
theorem pyInsert_at (x : DChunk) (A B : List DChunk) (n : Nat)
    (h : n = A.length) : pyInsert x n (A ++ B) = A ++ x :: B := by
  subst h
  exact pyInsert_eq_append x A B

/-- Image insertion on a position-sound chunk list: the new image chunk
lands at the estimated index carrying that index as its position, every
chunk before it is untouched, and every chunk from the index on is exactly
the original chunk with its position shifted up by one. -/
theorem insert_image_chunk_decomp (chunks : List DChunk) (page_num : Nat)
    (h : PosOk chunks) :
    insert_image_chunk chunks page_num =
      chunks.take (estimate_image_position chunks page_num) ++
        { ctype := .image, content := .image page_num,
          position := estimate_image_position chunks page_num,
          page := page_num } ::
        (chunks.drop (estimate_image_position chunks page_num)).map
          (fun c => { c with position := c.position + 1 }) := by
  set p := estimate_image_position chunks page_num with hp
  have hple : p ≤ chunks.length := estimate_image_position_le chunks page_num
  have htake : (chunks.take p).length = p := by
    rw [List.length_take]
    omega
  rw [insert_image_chunk, ← hp]
  conv_lhs => rw [← List.take_append_drop p chunks]
  rw [pyInsert_at _ _ _ _ htake.symm, renumber_from_append, htake,
    renumber_from_of_le _ _ 0 (by omega), renumber_from, if_neg (by omega)]
  congr 2
  apply renumber_from_eq_map _ _ _ (by omega)
  intro j hj
  have hjlen : p + j < chunks.length := by
    rw [List.length_drop] at hj
    omega
  have hget : ((chunks.drop p).get ⟨j, hj⟩ : DChunk) =
      chunks.get ⟨p + j, hjlen⟩ := by
    rw [List.get_eq_getElem, List.get_eq_getElem]
    have h1 := List.getElem?_drop chunks p j
    rw [List.getElem?_eq_getElem hj, List.getElem?_eq_getElem hjlen] at h1
    exact Option.some.inj h1
  rw [hget, PosOk_get chunks h _ hjlen]
  omega

theorem drop_range' :
    ∀ (n m s : Nat), (List.range' s n 1).drop m = List.range' (s + m) (n - m) 1 := by
  intro n
  induction n with
  | zero => intro m s; simp
  | succ k ih =>
    intro m s
    cases m with
    | zero => simp
    | succ m' =>
      rw [List.range'_succ, List.drop_succ_cons, ih]
      congr 1 <;> omega

/-- Image insertion re-establishes the position invariant. -/
theorem insert_image_chunk_PosOk (chunks : List DChunk) (page_num : Nat)
    (h : PosOk chunks) : PosOk (insert_image_chunk chunks page_num) := by
  set p := estimate_image_position chunks page_num with hp
  have hple : p ≤ chunks.length := estimate_image_position_le chunks page_num
  rw [PosOk, insert_image_chunk_decomp chunks page_num h, ← hp]
  simp only [List.map_append, List.map_cons, List.map_map,
    List.length_append, List.length_cons, List.length_map, List.length_take,
    List.length_drop]
  have htakemap : (chunks.take p).map (fun c => c.position) =
      List.range' 0 p := by
    rw [List.map_take, h, List.take_range, Nat.min_eq_left hple,
      List.range_eq_range']
  have hdropmap : ((chunks.drop p).map (fun c => c.position)) =
      List.range' p (chunks.length - p) := by
    rw [List.map_drop, h, List.range_eq_range', drop_range', Nat.zero_add]
  have hcomp : ((fun c => c.position) ∘
      (fun c : DChunk => { c with position := c.position + 1 })) =
      (fun c : DChunk => c.position + 1) := rfl
  rw [hcomp]
  have hdropmap1 : (chunks.drop p).map (fun c : DChunk => c.position + 1) =
      List.range' (p + 1) (chunks.length - p) := by
    have : (fun c : DChunk => c.position + 1) =
        ((fun x => 1 + x) ∘ (fun c : DChunk => c.position)) := by
      funext c
      simp [Nat.add_comm]
    rw [this, ← List.map_map, hdropmap, List.map_add_range', Nat.add_comm 1 p]
  rw [htakemap, hdropmap1]
  have hcons : (p : Nat) :: List.range' (p + 1) (chunks.length - p) =
      List.range' p (chunks.length - p + 1) := (List.range'_succ p _ 1).symm
  rw [hcons]
  have happ := List.range'_append 0 p (chunks.length - p + 1) 1
  rw [Nat.one_mul, Nat.zero_add] at happ
  rw [happ, List.range_eq_range']
  congr 1
  omega

/-- The image fold preserves the position invariant. -/
theorem foldl_insert_PosOk :
    ∀ (l : List Nat) (chunks : List DChunk), PosOk chunks →
      PosOk (l.foldl insert_image_chunk chunks) := by
  intro l
  induction l with
  | nil => intro chunks h; exact h
  | cons a rest ih =>
    intro chunks h
    exact ih _ (insert_image_chunk_PosOk chunks a h)

/-- Every chunk list produced by `parse_pdf` satisfies the position
invariant. -/
theorem parse_pdf_PosOk (page_texts : List (List Char))
    (image_page_count : Nat) : PosOk (parse_pdf page_texts image_page_count) := by
  rw [parse_pdf]
  apply foldl_insert_PosOk
  rw [PosOk]
  have hs := add_pages_spec page_texts 0 0
  rw [hs.2, List.range_eq_range']

/-- C2: the Segmenter's position invariant.  (i) In every chunk sequence
produced by `DocumentParser.parse_pdf`, positions strictly increase with
the list order; (ii) in fact every chunk's position equals its index, so
positions are the gap-free, duplicate-free sequence `0, 1, 2, …`;
(iii) each image insertion at estimated position `p` inserts the image
chunk with position `p`, leaves the chunks before `p` untouched, and
renumbers every chunk originally at position `≥ p` to `p+1, p+2, …`
(each original chunk reappears one slot later with its position raised by
exactly one). -/
theorem segmenter_position_invariant :
    (∀ (page_texts : List (List Char)) (image_page_count i j : Nat)
        (hi : i < (parse_pdf page_texts image_page_count).length)
        (hj : j < (parse_pdf page_texts image_page_count).length),
      i < j →
      ((parse_pdf page_texts image_page_count).get ⟨i, hi⟩).position <
        ((parse_pdf page_texts image_page_count).get ⟨j, hj⟩).position) ∧
    (∀ (page_texts : List (List Char)) (image_page_count i : Nat)
        (hi : i < (parse_pdf page_texts image_page_count).length),
      ((parse_pdf page_texts image_page_count).get ⟨i, hi⟩).position = i) ∧
    (∀ (chunks : List DChunk) (page_num : Nat), PosOk chunks →
      insert_image_chunk chunks page_num =
        chunks.take (estimate_image_position chunks page_num) ++
          { ctype := .image, content := .image page_num,
            position := estimate_image_position chunks page_num,
            page := page_num } ::
          (chunks.drop (estimate_image_position chunks page_num)).map
            (fun c => { c with position := c.position + 1 })) := by
  refine ⟨?_, ?_, insert_image_chunk_decomp⟩
  · intro pts k i j hi hj hij
    rw [PosOk_get _ (parse_pdf_PosOk pts k) i hi,
      PosOk_get _ (parse_pdf_PosOk pts k) j hj]
    exact hij
  · intro pts k i hi
    exact PosOk_get _ (parse_pdf_PosOk pts k) i hi


/-- C2 (witness): the invariant at a concrete two-page document with two
page renders, and a concrete insertion. -/
theorem segmenter_position_invariant_witness :
    (0 : Nat) < 1 ∧
    ((parse_pdf ["P1\n\nP2".data, "P3".data] 2).get ⟨0, by decide⟩).position <
      ((parse_pdf ["P1\n\nP2".data, "P3".data] 2).get ⟨1, by decide⟩).position ∧
    ((parse_pdf ["P1\n\nP2".data, "P3".data] 2).get ⟨3, by decide⟩).position =
      3 ∧
    insert_image_chunk c2_chunks 1 =
      c2_chunks.take (estimate_image_position c2_chunks 1) ++
        { ctype := .image, content := .image 1,
          position := estimate_image_position c2_chunks 1, page := 1 } ::
        (c2_chunks.drop (estimate_image_position c2_chunks 1)).map
          (fun c => { c with position := c.position + 1 }) :=
  ⟨by decide,
   segmenter_position_invariant.1 ["P1\n\nP2".data, "P3".data] 2 0 1
     (by decide) (by decide) (by decide),
   segmenter_position_invariant.2.1 ["P1\n\nP2".data, "P3".data] 2 3
     (by decide),
   segmenter_position_invariant.2.2 c2_chunks 1 (by unfold PosOk; decide)⟩
